import Mathlib

/-!
Verification of the JotiCalc incremental line-evaluation model
(`src/src/App.vue`).

The first-party logic of the repository is:
  * `evaluateLine` / `updateAllLinesAfter` — evaluate one line and cascade
    forward over all later lines (mutually recursive in the source);
  * the per-line parsing rules (comment / assignment / bare expression,
    splitting on `=` and on the conversion keyword ` to `);
  * `handleBackspace` / `addLine` — structural edits of the line list;
  * the currency-registration loop of `fetchCurrency`.

The external math-expression library is treated as an abstract capability
(`Engine`), exactly as the spec prescribes; a small concrete instance
(`specEngine`, modelled from the spec) is used for concrete runs.

JS strings are modelled as `String` / `List Char`; `String.split`,
`String.trim`, `includes` are modelled by executable functions below.
-/

set_option autoImplicit false

namespace JotiCalc

/-! ### JS string primitives -/

/-- Model of JS `String.prototype.trim` on a character list: drop whitespace
from both ends. -/
def trimL (l : List Char) : List Char :=
  ((l.dropWhile Char.isWhitespace).reverse.dropWhile Char.isWhitespace).reverse

/-- Model of JS `split(sep)` for a single-character separator: split at every
occurrence of `sep`.  `splitChar sep l` is never empty. -/
def splitChar (sep : Char) : List Char → List (List Char)
  | [] => [[]]
  | c :: cs =>
    if c = sep then [] :: splitChar sep cs
    else
      match splitChar sep cs with
      | [] => [[c]]
      | p :: ps => (c :: p) :: ps

/-- Locate the first occurrence of the (non-empty) separator `sep` in `l`,
returning the part before it and the part after it. -/
def findSplit? (sep : List Char) : List Char → Option (List Char × List Char)
  | [] => none
  | c :: cs =>
    if (c :: cs).take sep.length = sep then some ([], (c :: cs).drop sep.length)
    else
      match findSplit? sep cs with
      | none => none
      | some (p, r) => some (c :: p, r)

theorem findSplit?_length {sep : List Char} (hsep : sep ≠ []) :
    ∀ {l p r : List Char}, findSplit? sep l = some (p, r) → r.length < l.length := by
  intro l
  induction l with
  | nil => intro p r h; simp [findSplit?] at h
  | cons c cs ih =>
    intro p r h
    rw [findSplit?] at h
    split at h
    · have hlen : 1 ≤ sep.length := by
        cases sep with
        | nil => exact absurd rfl hsep
        | cons a as => simp
      simp only [Option.some.injEq, Prod.mk.injEq] at h
      have hr : r = (c :: cs).drop sep.length := h.2.symm
      subst hr
      simp only [List.length_drop, List.length_cons]
      omega
    · cases hfs : findSplit? sep cs with
      | none => rw [hfs] at h; simp at h
      | some pr =>
        rw [hfs] at h
        obtain ⟨p', r'⟩ := pr
        simp only [Option.some.injEq, Prod.mk.injEq] at h
        have hlt := ih (p := p') (r := r') hfs
        have hr : r = r' := h.2.symm
        subst hr
        simp only [List.length_cons]
        omega

/-- Model of JS `includes(sep)` for a non-empty string separator. -/
def containsSub (sep l : List Char) : Bool :=
  (findSplit? sep l).isSome

/-- Model of JS `split(sep)` for a multi-character separator such as
`" to "`: repeatedly split at the first occurrence. -/
def splitSub (sep l : List Char) : List (List Char) :=
  if hsep : sep = [] then [l]
  else
    match hfs : findSplit? sep l with
    | none => [l]
    | some (p, r) => p :: splitSub sep r
termination_by l.length
decreasing_by
  exact findSplit?_length hsep hfs

/-! ### The abstract Expression Engine (external collaborator)

The spec (section 2) treats the math library as a capability:
`evaluate(expr, bindings)`, `convert(value, unit)` (the source calls
`math.to`), `format(value, precision)` (precision is a fixed constant in
the source, so it is baked in).  Any call may fail with an engine-supplied
message, which the source catches per line. -/

structure Engine (V : Type) where
  evaluate : String → List (String × V) → Except String V
  convert : V → String → Except String V
  format : V → Except String String

/-- The per-line output fields of a `CalculatorLine`:
`result`, `hasError`, `errorMessage`. -/
structure LineOut where
  result : String
  hasError : Bool
  errorMessage : String
  deriving DecidableEq, Repr

/-- State threaded through an evaluation cascade: the output fields of all
lines (parallel to the list of input texts, which evaluation never changes)
and the shared variable-binding table `variables`.  The binding table is an
association list: JS `variables[name] = v` is modelled by prepending
`(name, v)`, and reads by first match (`List.lookup`). -/
structure EvalSt (V : Type) where
  outs : List LineOut
  vars : List (String × V)
  deriving Repr

/-! ### Per-line evaluation (the body of `evaluateLine`, lines 118-157) -/

/-- The `catch` clause (lines 153-157): `line.result = 'Error'`,
`hasError = true`, `errorMessage = err.message || 'Unknown error'`
(JS `||` substitutes the fallback when the message is empty/absent). -/
def msgOr (m : String) : String :=
  if m = "" then "Unknown error" else m

/-- The line output produced by the `catch` clause for message `m`. -/
def errOut (m : String) : LineOut :=
  ⟨"Error", true, msgOr m⟩

/-- Lines 129-130: `input.split('=').map(part => part.trim())`
destructured into `[varName, expression]` — JS `split('=')` splits at
every `=`, and the destructuring keeps only the first two parts. -/
def assignSplit (l : List Char) : List Char × List Char :=
  let parts := (splitChar '=' l).map trimL
  (parts.headD [], parts.tail.headD [])

/-- Lines 134-138: the conversion sub-case of an assignment — evaluate
`fromExpr`, convert to `toUnit`, store under the variable name, format.
Note that the source assigns `variables[varName]` *before* calling
`math.format`, so a formatting failure leaves the new binding in place. -/
def convAssign {V : Type} (E : Engine V) (vars : List (String × V))
    (varName : List Char) (fromExpr toUnit : String) :
    LineOut × List (String × V) :=
  match E.evaluate fromExpr vars with
  | .error m => (errOut m, vars)
  | .ok v =>
    match E.convert v toUnit with
    | .error m => (errOut m, vars)
    | .ok conv =>
      let vars' := (String.mk varName, conv) :: vars
      match E.format conv with
      | .error m => (errOut m, vars')
      | .ok r => (⟨r, false, ""⟩, vars')

/-- Lines 140-143: the plain assignment sub-case — evaluate the
expression, store under the variable name, format.  The binding is again
written before formatting. -/
def plainAssign {V : Type} (E : Engine V) (vars : List (String × V))
    (varName : List Char) (expr : String) : LineOut × List (String × V) :=
  match E.evaluate expr vars with
  | .error m => (errOut m, vars)
  | .ok v =>
    let vars' := (String.mk varName, v) :: vars
    match E.format v with
    | .error m => (errOut m, vars')
    | .ok r => (⟨r, false, ""⟩, vars')

/-- Lines 132-144: evaluate an assignment `varName = expression`, with the
`' to '` conversion sub-case (`expression.split(' to ')`, first two parts
trimmed) and the regular sub-case. -/
def assignEval {V : Type} (E : Engine V) (vars : List (String × V))
    (varName expression : List Char) : LineOut × List (String × V) :=
  if containsSub " to ".data expression then
    let cparts := (splitSub " to ".data expression).map trimL
    convAssign E vars varName (String.mk (cparts.headD []))
      (String.mk (cparts.tail.headD []))
  else
    plainAssign E vars varName (String.mk expression)

/-- Lines 127-157: the `try`/`catch` body of `evaluateLine` for a trimmed,
non-empty, non-comment input: assignment if the input contains `=`
(lines 129-144), bare expression otherwise (lines 145-149); any failure
produces the `catch` outcome `errOut`. -/
def evalCore {V : Type} (E : Engine V) (vars : List (String × V))
    (input : List Char) : LineOut × List (String × V) :=
  if input.contains '=' then
    let ps := assignSplit input
    assignEval E vars ps.1 ps.2
  else
    match E.evaluate (String.mk input) vars with
    | .error m => (errOut m, vars)
    | .ok v =>
      match E.format v with
      | .error m => (errOut m, vars)
      | .ok r => (⟨r, false, ""⟩, vars)

/-- Lines 119-120: a line is skipped (result and error state cleared,
nothing evaluated, no cascade) when its trimmed input is empty or starts
with the comment marker `//`. -/
def isSkipped (input : List Char) : Bool :=
  decide (input = []) || decide (input.take 2 = ['/', '/'])

/-! ### The evaluation cascade

In the source, `evaluateLine(i)` re-evaluates line `i` and then calls
`updateAllLinesAfter(i)`, which loops `j = i+1 .. n-1` calling
`evaluateLine(j)` — a mutual recursion.  It is embedded below as a single
structural recursion `evalLoop` over the list of indices still to process;
`evalLoop_range'` proves that the embedding satisfies exactly the
source's mutual recurrence.

Each result is instrumented with a trace: the list of `(index, hasError)`
pairs in the order the lines were evaluated.  The trace is ghost data;
the `EvalSt` component is the source's semantics. -/

/-- Process the indices `js` in order; for each index, evaluate that line
exactly as `evaluateLine` does (including its own forward cascade, which
covers precisely the indices after it, i.e. the tail of `js` when `js` is
a contiguous range). -/
def evalLoop {V : Type} (E : Engine V) (inputs : List String) :
    List Nat → EvalSt V → EvalSt V × List (Nat × Bool)
  | [], st => (st, [])
  | j :: rest, st =>
    let r : EvalSt V × List (Nat × Bool) :=
      match inputs[j]? with
      | none => (st, [])
      | some s =>
        let input := trimL s.data
        if isSkipped input then
          ({ st with outs := st.outs.set j ⟨"", false, ""⟩ }, [(j, false)])
        else
          let p := evalCore E st.vars input
          let r' := evalLoop E inputs rest ⟨st.outs.set j p.1, p.2⟩
          (r'.1, (j, p.1.hasError) :: r'.2)
    let r'' := evalLoop E inputs rest r.1
    (r''.1, r.2 ++ r''.2)

/-- Lines 163-168: `updateAllLinesAfter(startIndex)` re-evaluates every
line at index `startIndex + 1 .. length - 1`, in increasing order. -/
def updateAllLinesAfter {V : Type} (E : Engine V) (inputs : List String)
    (st : EvalSt V) (startIndex : Nat) : EvalSt V × List (Nat × Bool) :=
  evalLoop E inputs (List.range' (startIndex + 1) (inputs.length - (startIndex + 1))) st

/-- Lines 116-161: `evaluateLine(index)`.  An out-of-range index is
unreachable from every call site (the loop is bounds-checked and the UI
passes list indices); it is modelled as a no-op.  A skipped
(empty/comment) line returns early (line 124), *without* cascading.
Otherwise the line is evaluated by `evalCore` and the cascade
`updateAllLinesAfter(index)` runs. -/
def evaluateLine {V : Type} (E : Engine V) (inputs : List String)
    (st : EvalSt V) (index : Nat) : EvalSt V × List (Nat × Bool) :=
  match inputs[index]? with
  | none => (st, [])
  | some s =>
    let input := trimL s.data
    if isSkipped input then
      ({ st with outs := st.outs.set index ⟨"", false, ""⟩ }, [(index, false)])
    else
      let p := evalCore E st.vars input
      let r := updateAllLinesAfter E inputs ⟨st.outs.set index p.1, p.2⟩ index
      (r.1, (index, p.1.hasError) :: r.2)

/-! ### Whole-pass evaluation

`onMounted` (lines 263-265) evaluates every line once, top to bottom:
`lines.value.forEach((_, index) => evaluateLine(index))`. -/

/-- Run `evaluateLine` at each index of `js` in order (each call includes
its own forward cascade), accumulating the trace. -/
def runList {V : Type} (E : Engine V) (inputs : List String) :
    List Nat → EvalSt V → EvalSt V × List (Nat × Bool)
  | [], st => (st, [])
  | j :: rest, st =>
    let r := evaluateLine E inputs st j
    let r' := runList E inputs rest r.1
    (r'.1, r.2 ++ r'.2)

/-- A full evaluation pass over the whole sequence, as in `onMounted`. -/
def runPass {V : Type} (E : Engine V) (inputs : List String) (st : EvalSt V) :
    EvalSt V × List (Nat × Bool) :=
  runList E inputs (List.range inputs.length) st

/-- The output fields of a freshly created / loaded line list of length `n`
(`result: '', hasError: false, errorMessage: ''`). -/
def blankOuts (n : Nat) : List LineOut :=
  List.replicate n ⟨"", false, ""⟩

/-! ### The line store and its structural operations -/

/-- The `CalculatorLine` interface (lines 6-11). -/
structure CalculatorLine where
  input : String
  result : String
  hasError : Bool
  errorMessage : String
  deriving DecidableEq, Repr

/-- The first-party state: the ordered line list and the shared
variable-binding table (lines 19-20; the source names the table
`variables`, a reserved word here, so the field is `vars`). -/
structure AppState (V : Type) where
  lines : List CalculatorLine
  vars : List (String × V)
  deriving Repr

/-- A blank line record as created by `addLine` (lines 172-177). -/
def newLine : CalculatorLine :=
  ⟨"", "", false, ""⟩

/-- Lines 171-193: `addLine(index?)` inserts a blank line at `index`
(`splice(index, 0, newLine)`) or appends when no index is given.
(Focus handling is UI-only and not modelled.) -/
def addLine {V : Type} (st : AppState V) (index : Option Nat) : AppState V :=
  match index with
  | some i => { st with lines := st.lines.insertIdx i newLine }
  | none => { st with lines := st.lines ++ [newLine] }

/-- Lines 196-214: `handleBackspace(event, index)` removes the line at
`index` when its input is exactly the empty string and more than one line
exists; otherwise nothing happens.  It performs no evaluation and does not
touch `variables`.  (Focus handling is UI-only and not modelled.) -/
def handleBackspace {V : Type} (st : AppState V) (index : Nat) : AppState V :=
  match st.lines[index]? with
  | none => st
  | some line =>
    if line.input = "" ∧ st.lines.length > 1 then
      { st with lines := st.lines.eraseIdx index }
    else
      st

/-- Project a line record to its output fields. -/
def outOf (l : CalculatorLine) : LineOut :=
  ⟨l.result, l.hasError, l.errorMessage⟩

/-- Recombine the (unchanged) inputs with updated output fields. -/
def withOuts (lines : List CalculatorLine) (outs : List LineOut) :
    List CalculatorLine :=
  List.zipWith (fun l o => ⟨l.input, o.result, o.hasError, o.errorMessage⟩) lines outs

/-- `evaluateLine` acting on the full store state: evaluation reads the
(unchanged) input texts and updates the output fields and the binding
table. -/
def storeEvaluateLine {V : Type} (E : Engine V) (st : AppState V) (index : Nat) :
    AppState V :=
  let r := evaluateLine E (st.lines.map CalculatorLine.input)
    ⟨st.lines.map outOf, st.vars⟩ index
  ⟨withOuts st.lines r.1.outs, r.1.vars⟩

/-- The user-triggered operations on the line store: add a line (button or
Enter), backspace-delete, and re-evaluation on input. -/
inductive AppOp where
  | add (index : Option Nat)
  | backspace (index : Nat)
  | evalLine (index : Nat)

/-- Apply one operation to the store. -/
def applyOp {V : Type} (E : Engine V) (op : AppOp) (st : AppState V) : AppState V :=
  match op with
  | .add i => addLine st i
  | .backspace i => handleBackspace st i
  | .evalLine i => storeEvaluateLine E st i

/-! ### A concrete Expression Engine instance

Modelled from the spec: the Expression Engine "evaluates a text expression
against a mapping of variable names to values" and raises an
EvaluationError for "undefined variables" (spec sections 2 and 7).  This
minimal instance understands decimal literals and variable references —
enough to exercise the first-party logic on concrete inputs.  (The real
engine is the external mathjs library, excluded from scope by the spec.) -/

/-- Parse a non-empty all-digit character list as a decimal numeral. -/
def parseNat? (l : List Char) : Option Nat :=
  if l ≠ [] ∧ l.all Char.isDigit then
    some (l.foldl (fun n c => 10 * n + (c.toNat - 48)) 0)
  else
    none

/-- Modelled from the spec: a minimal Expression Engine over integer
values (decimal literals and variable lookup; errors on undefined
symbols, like the external engine's EvaluationError). -/
def specEngine : Engine Int where
  evaluate s vars :=
    match parseNat? s.data with
    | some n => .ok (Int.ofNat n)
    | none =>
      match vars.lookup s with
      | some v => .ok v
      | none => .error ("Undefined symbol " ++ s)
  convert _ u := .error ("Cannot convert to " ++ u)
  format v := .ok (toString v)

/-! ### Currency registration (`fetchCurrency`, lines 89-109)

Only the registration loop is first-party logic; the network fetch and
`math.createUnit` belong to external collaborators.  A fetched entry is a
pair of a currency code and a JSON value; a JS number is NaN, ±Infinity or
a finite value (modelled as a rational — no claim here depends on
floating-point rounding). -/

inductive JsNum where
  | nan
  | inf
  | ninf
  | fin (q : ℚ)
  deriving DecidableEq, Repr

inductive JsonVal where
  | num (x : JsNum)
  | other
  deriving DecidableEq, Repr

/-- Lines 91-99: the loop's skip condition —
`currency === 'usd' || currency === '1inch' || typeof rate !== 'number'
|| !isFinite(rate) || rate <= 0`. -/
def skipCurrency (c : String) (r : JsonVal) : Bool :=
  c == "usd" || c == "1inch" ||
    (match r with
     | .other => true
     | .num .nan => true
     | .num .inf => true
     | .num .ninf => true
     | .num (.fin q) => decide (q ≤ 0))

/-- The multiplier in the unit definition `` `${1 / rate} USD` ``. -/
def rateOf (r : JsonVal) : ℚ :=
  match r with
  | .num (.fin q) => 1 / q
  | _ => 0

/-- Lines 89-109: the registration loop of `fetchCurrency` — for each
non-skipped entry, create a lower-case and an upper-case unit, both
defined as `1 / rate` USD.  The returned list records the unit
definitions passed to `math.createUnit`, in order. -/
def fetchCurrency (entries : List (String × JsonVal)) : List (String × ℚ) :=
  match entries with
  | [] => []
  | (c, r) :: rest =>
    if skipCurrency c r then fetchCurrency rest
    else (c.toLower, rateOf r) :: (c.toUpper, rateOf r) :: fetchCurrency rest

/-- The skip condition as the claim states it: only non-numeric,
non-finite, or non-positive rates and the self-referential `usd` entry
are skipped (no `1inch` case). -/
def skipCurrencyClaim (c : String) (r : JsonVal) : Bool :=
  c == "usd" ||
    (match r with
     | .other => true
     | .num .nan => true
     | .num .inf => true
     | .num .ninf => true
     | .num (.fin q) => decide (q ≤ 0))

/-! ### Basic structure of the cascade -/

section CascadeLemmas

variable {V : Type} (E : Engine V) (inputs : List String)

/-- One step of `evalLoop`: the evaluation of the single line `j` whose
forward cascade covers the indices `rest`.  When `rest` is exactly the
range of indices after `j`, this is `evaluateLine j` (see
`evaluateLine_eq_step` below). -/
def evalStep (j : Nat) (rest : List Nat) (st : EvalSt V) :
    EvalSt V × List (Nat × Bool) :=
  match inputs[j]? with
  | none => (st, [])
  | some s =>
    let input := trimL s.data
    if isSkipped input then
      ({ st with outs := st.outs.set j ⟨"", false, ""⟩ }, [(j, false)])
    else
      let p := evalCore E st.vars input
      let r' := evalLoop E inputs rest ⟨st.outs.set j p.1, p.2⟩
      (r'.1, (j, p.1.hasError) :: r'.2)

theorem evalLoop_nil (st : EvalSt V) :
    evalLoop E inputs [] st = (st, []) := rfl

theorem evalLoop_cons (j : Nat) (rest : List Nat) (st : EvalSt V) :
    evalLoop E inputs (j :: rest) st =
      ((evalLoop E inputs rest (evalStep E inputs j rest st).1).1,
        (evalStep E inputs j rest st).2 ++
          (evalLoop E inputs rest (evalStep E inputs j rest st).1).2) := rfl

/-- The embedding agrees with the source shape of `evaluateLine`: for the
cascade range, one `evalLoop` step is exactly `evaluateLine`. -/
theorem evaluateLine_eq_step (st : EvalSt V) (i : Nat) :
    evaluateLine E inputs st i =
      evalStep E inputs i (List.range' (i + 1) (inputs.length - (i + 1))) st := rfl

/-- The embedding satisfies the source recurrence of
`updateAllLinesAfter` (lines 163-168): the loop body runs
`evaluateLine (startIndex + 1)` and then continues from
`startIndex + 1`, stopping when no indices remain. -/
theorem updateAllLinesAfter_recurrence (st : EvalSt V) (s : Nat) :
    updateAllLinesAfter E inputs st s =
      if s + 1 < inputs.length then
        ((updateAllLinesAfter E inputs (evaluateLine E inputs st (s + 1)).1 (s + 1)).1,
          (evaluateLine E inputs st (s + 1)).2 ++
            (updateAllLinesAfter E inputs (evaluateLine E inputs st (s + 1)).1 (s + 1)).2)
      else (st, []) := by
  by_cases h : s + 1 < inputs.length
  · have hn : inputs.length - (s + 1) = (inputs.length - (s + 2)) + 1 := by omega
    simp only [if_pos h]
    rw [updateAllLinesAfter, hn, List.range'_succ, evalLoop_cons]
    rw [evaluateLine_eq_step]
    have hr : inputs.length - (s + 1 + 1) = inputs.length - (s + 2) := by omega
    rw [updateAllLinesAfter, hr]
  · have hn : inputs.length - (s + 1) = 0 := by omega
    simp only [if_neg h]
    rw [updateAllLinesAfter, hn]
    rfl

/-- Evaluation never changes the number of lines. -/
theorem evalLoop_outs_length (js : List Nat) (st : EvalSt V) :
    (evalLoop E inputs js st).1.outs.length = st.outs.length := by
  induction js generalizing st with
  | nil => rfl
  | cons j rest ih =>
    rw [evalLoop_cons]
    rw [ih]
    unfold evalStep
    cases inputs[j]? with
    | none => rfl
    | some s =>
      simp only []
      split
      · simp
      · rw [ih]
        simp

theorem evaluateLine_outs_length (st : EvalSt V) (i : Nat) :
    (evaluateLine E inputs st i).1.outs.length = st.outs.length := by
  rw [evaluateLine_eq_step]
  unfold evalStep
  cases inputs[i]? with
  | none => rfl
  | some s =>
    simp only []
    split
    · simp
    · simp only [updateAllLinesAfter]
      rw [evalLoop_outs_length]
      simp

/-- Trace entries only mention processed, in-range indices. -/
theorem evalLoop_trace_mem (js : List Nat) (st : EvalSt V) :
    ∀ p ∈ (evalLoop E inputs js st).2, p.1 ∈ js ∧ (inputs[p.1]?).isSome := by
  induction js generalizing st with
  | nil => intro p hp; simp [evalLoop_nil] at hp
  | cons j rest ih =>
    intro p hp
    rw [evalLoop_cons] at hp
    simp only [List.mem_append] at hp
    rcases hp with hp | hp
    · unfold evalStep at hp
      cases hin : inputs[j]? with
      | none => rw [hin] at hp; simp at hp
      | some s =>
        rw [hin] at hp
        simp only [] at hp
        split at hp
        · simp only [List.mem_singleton] at hp
          subst hp
          exact ⟨List.mem_cons_self j rest, by simp [hin]⟩
        · simp only [List.mem_cons] at hp
          rcases hp with hp | hp
          · subst hp
            exact ⟨List.mem_cons_self j rest, by simp [hin]⟩
          · have := ih _ _ hp
            exact ⟨List.mem_cons_of_mem j this.1, this.2⟩
    · have := ih _ _ hp
      exact ⟨List.mem_cons_of_mem j this.1, this.2⟩

/-- Frame property: `evalLoop` leaves the output of any line whose index
is not in the processed list untouched. -/
theorem evalLoop_frame (js : List Nat) (st : EvalSt V) (j : Nat) (hj : j ∉ js) :
    (evalLoop E inputs js st).1.outs[j]? = st.outs[j]? := by
  induction js generalizing st with
  | nil => rfl
  | cons k rest ih =>
    have hk : j ≠ k := fun h => hj (h ▸ List.mem_cons_self k rest)
    have hrest : j ∉ rest := fun h => hj (List.mem_cons_of_mem k h)
    rw [evalLoop_cons, ih _ hrest]
    unfold evalStep
    cases inputs[k]? with
    | none => rfl
    | some s =>
      simp only []
      split
      · simp [List.getElem?_set_ne (Ne.symm hk)]
      · rw [ih _ hrest]
        simp [List.getElem?_set_ne (Ne.symm hk)]

/-- Every in-range processed index shows up in the trace; moreover the
processed indices form a subsequence of the trace, in order. -/
theorem evalLoop_trace_sublist (js : List Nat) (st : EvalSt V)
    (hvalid : ∀ j ∈ js, j < inputs.length) :
    js.Sublist ((evalLoop E inputs js st).2.map Prod.fst) := by
  induction js generalizing st with
  | nil => simp [evalLoop_nil]
  | cons j rest ih =>
    rw [evalLoop_cons]
    simp only [List.map_append]
    have hj : j < inputs.length := hvalid j (List.mem_cons_self j rest)
    have hrest : ∀ k ∈ rest, k < inputs.length :=
      fun k hk => hvalid k (List.mem_cons_of_mem j hk)
    obtain ⟨s, hs⟩ : ∃ s, inputs[j]? = some s :=
      ⟨inputs[j], List.getElem?_eq_some.mpr ⟨hj, rfl⟩⟩
    unfold evalStep
    rw [hs]
    simp only []
    split
    · simp only [List.map_cons, List.map_nil]
      exact List.Sublist.cons₂ j (List.Sublist.trans (ih _ hrest)
        (List.sublist_append_right _ _))
    · simp only [List.map_cons]
      rw [List.cons_append]
      exact List.Sublist.cons₂ j (List.Sublist.trans (ih _ hrest)
        (List.sublist_append_right _ _))

/-- The number of evaluations performed while processing `js` is at most
`2 ^ js.length - 1`. -/
theorem evalLoop_trace_length (js : List Nat) (st : EvalSt V) :
    (evalLoop E inputs js st).2.length ≤ 2 ^ js.length - 1 := by
  induction js generalizing st with
  | nil => simp [evalLoop_nil]
  | cons j rest ih =>
    rw [evalLoop_cons]
    simp only [List.length_append, List.length_cons]
    have hout := ih (evalStep E inputs j rest st).1
    have hstep : (evalStep E inputs j rest st).2.length ≤ 2 ^ rest.length := by
      unfold evalStep
      cases inputs[j]? with
      | none => simp
      | some s =>
        simp only []
        split
        · simp
          have : (1:Nat) ≤ 2 ^ rest.length := Nat.one_le_two_pow
          omega
        · simp only [List.length_cons]
          have := ih ⟨st.outs.set j (evalCore E st.vars (trimL s.data)).1,
            (evalCore E st.vars (trimL s.data)).2⟩
          have h2 : (1:Nat) ≤ 2 ^ rest.length := Nat.one_le_two_pow
          omega
    have h2 : (1:Nat) ≤ 2 ^ rest.length := Nat.one_le_two_pow
    calc (evalStep E inputs j rest st).2.length +
        (evalLoop E inputs rest (evalStep E inputs j rest st).1).2.length
        ≤ 2 ^ rest.length + (2 ^ rest.length - 1) := Nat.add_le_add hstep hout
      _ = 2 ^ (rest.length + 1) - 1 := by rw [Nat.pow_succ]; omega

end CascadeLemmas

/-! ### Claim C10 — termination of the cascade -/

/-- C10: for every engine, line sequence, state and starting index, the
cascade started by `evaluateLine i` performs finitely many line
evaluations — at most `2 ^ (n − i)` — and every evaluation happens at an
index between `i` and the end of the sequence (every recursive call is at
a strictly larger index, bounded by the sequence length).  Since
`evaluateLine` / `updateAllLinesAfter` are total functions of the
embedding, the mutual recursion of the source terminates on every input. -/
theorem c10_cascade_terminates {V : Type} (E : Engine V) (inputs : List String)
    (st : EvalSt V) (i : Nat) :
    (evaluateLine E inputs st i).2.length ≤ 2 ^ (inputs.length - i) ∧
    ∀ p ∈ (evaluateLine E inputs st i).2, i ≤ p.1 ∧ p.1 < inputs.length := by
  rw [evaluateLine_eq_step]
  unfold evalStep
  cases hin : inputs[i]? with
  | none =>
    constructor
    · simp
    · intro p hp; simp at hp
  | some s =>
    have hi : i < inputs.length := (List.getElem?_eq_some.mp hin).1
    simp only []
    split
    · constructor
      · have h1 : (1:Nat) ≤ 2 ^ (inputs.length - i) := Nat.one_le_two_pow
        simpa using h1
      · intro p hp
        simp only [List.mem_singleton] at hp
        subst hp
        exact ⟨Nat.le_refl i, hi⟩
    · constructor
      · simp only [List.length_cons]
        have hb := evalLoop_trace_length E inputs
          (List.range' (i + 1) (inputs.length - (i + 1)))
          ⟨st.outs.set i (evalCore E st.vars (trimL s.data)).1,
            (evalCore E st.vars (trimL s.data)).2⟩
        rw [List.length_range'] at hb
        have hpow : 2 ^ (inputs.length - (i + 1)) ≤ 2 ^ (inputs.length - i) :=
          Nat.pow_le_pow_right (by omega) (by omega)
        have h1 : (1:Nat) ≤ 2 ^ (inputs.length - (i + 1)) := Nat.one_le_two_pow
        omega
      · intro p hp
        simp only [List.mem_cons] at hp
        rcases hp with hp | hp
        · subst hp
          exact ⟨Nat.le_refl i, hi⟩
        · have := (evalLoop_trace_mem E inputs _ _ p hp).1
          rw [List.mem_range'_1] at this
          exact ⟨by omega, by omega⟩

/-- Witness for C10 at a concrete input: a one-line sequence, where the
trace is `[(0, false)]`. -/
theorem c10_cascade_terminates_witness :
    (evaluateLine specEngine ["5"] ⟨blankOuts 1, []⟩ 0).2.length ≤ 2 ^ (1 - 0) ∧
    (0 ≤ ((0, false) : Nat × Bool).1 ∧ ((0, false) : Nat × Bool).1 < 1) :=
  ⟨by
    have h := (c10_cascade_terminates specEngine ["5"] ⟨blankOuts 1, []⟩ 0).1
    simpa using h,
   (c10_cascade_terminates specEngine ["5"] ⟨blankOuts 1, []⟩ 0).2 (0, false)
     (by decide)⟩

/-! ### Claim C7 — empty and comment lines -/

/-- C7: whenever the trimmed input of line `i` is empty or begins with the
comment marker `//`, `evaluateLine i` clears the line's result, error flag
and error message, and leaves the binding table exactly as it was —
regardless of what follows the marker. -/
theorem c7_comment_clears {V : Type} (E : Engine V) (inputs : List String)
    (st : EvalSt V) (i : Nat) (s : String)
    (hin : inputs[i]? = some s)
    (hskip : isSkipped (trimL s.data) = true)
    (hlen : st.outs.length = inputs.length) :
    (evaluateLine E inputs st i).1.outs[i]? = some ⟨"", false, ""⟩ ∧
    (evaluateLine E inputs st i).1.vars = st.vars := by
  have hi : i < inputs.length := (List.getElem?_eq_some.mp hin).1
  rw [evaluateLine_eq_step]
  unfold evalStep
  rw [hin]
  simp only [hskip, if_true]
  refine ⟨List.getElem?_set_self (by omega), ?_⟩
  trivial

/-- Witness for C7: a comment line with an assignment after the marker
clears its output and writes no binding. -/
theorem c7_comment_clears_witness :
    (evaluateLine specEngine ["// x = 5"] ⟨blankOuts 1, [("a", (2:Int))]⟩ 0).1.outs[0]? =
      some ⟨"", false, ""⟩ ∧
    (evaluateLine specEngine ["// x = 5"] ⟨blankOuts 1, [("a", (2:Int))]⟩ 0).1.vars =
      [("a", (2:Int))] :=
  c7_comment_clears specEngine ["// x = 5"] ⟨blankOuts 1, [("a", (2:Int))]⟩ 0
    "// x = 5" rfl (by decide) rfl

/-! ### Claim C1 — the forward cascade -/

/-- C1 counterexample: on the three-line sequence below, `evaluateLine 0`
evaluates the lines in the order `0, 1, 2, 2` — line `2` is re-evaluated
twice, not exactly once, because `evaluateLine` and `updateAllLinesAfter`
recurse into each other.  This refutes "each line at position `j > i` is
re-evaluated exactly once per edit". -/
theorem c1_cascade_counterexample :
    (evaluateLine specEngine ["a = 1", "b = 2", "c = 3"]
        ⟨blankOuts 3, []⟩ 0).2.map Prod.fst = [0, 1, 2, 2] ∧
    ¬ ((evaluateLine specEngine ["a = 1", "b = 2", "c = 3"]
        ⟨blankOuts 3, []⟩ 0).2.map Prod.fst).count 2 = 1 := by
  constructor
  · decide
  · decide

/-- C1 amended: when the edited line `i` is non-empty and not a comment,
`evaluateLine i` evaluates line `i` and then every line `j > i` at least
once, and the full index sequence `i, i+1, …, n−1` occurs in increasing
order as a subsequence of the evaluation order (so a binding change at `i`
is seen by every later line); lines may be re-evaluated more than once
rather than exactly once.  (When line `i` is empty or a comment, the
source returns early and no later line is evaluated at all.) -/
theorem c1_cascade_amended {V : Type} (E : Engine V) (inputs : List String)
    (st : EvalSt V) (i : Nat) (s : String)
    (hin : inputs[i]? = some s)
    (hskip : isSkipped (trimL s.data) = false) :
    (List.range' i (inputs.length - i)).Sublist
      ((evaluateLine E inputs st i).2.map Prod.fst) := by
  have hi : i < inputs.length := (List.getElem?_eq_some.mp hin).1
  rw [evaluateLine_eq_step]
  unfold evalStep
  rw [hin]
  simp only [hskip, if_false, Bool.false_eq_true]
  have hn : inputs.length - i = (inputs.length - (i + 1)) + 1 := by omega
  rw [hn, List.range'_succ]
  simp only [List.map_cons]
  exact List.Sublist.cons₂ i
    (evalLoop_trace_sublist E inputs _ _
      (fun j hj => by rw [List.mem_range'_1] at hj; omega))

/-- Witness for C1 amended: on a concrete two-line sequence, the indices
`0, 1` occur in order in the evaluation trace of `evaluateLine 0`. -/
theorem c1_cascade_amended_witness :
    (List.range' 0 (2 - 0)).Sublist
      ((evaluateLine specEngine ["a = 1", "b = a"]
          ⟨blankOuts 2, []⟩ 0).2.map Prod.fst) :=
  c1_cascade_amended specEngine ["a = 1", "b = a"] ⟨blankOuts 2, []⟩ 0
    "a = 1" rfl (by decide)

/-! ### Claim C3 — the assignment split -/

theorem splitChar_ne_nil (sep : Char) (l : List Char) : splitChar sep l ≠ [] := by
  cases l with
  | nil => simp [splitChar]
  | cons c cs =>
    rw [splitChar]
    split
    · simp
    · split
      · simp
      · simp

theorem splitChar_of_not_mem {sep : Char} {l : List Char} (h : sep ∉ l) :
    splitChar sep l = [l] := by
  induction l with
  | nil => rfl
  | cons c cs ih =>
    have hc : ¬ c = sep := fun hc => h (hc ▸ List.mem_cons_self c cs)
    have hcs : sep ∉ cs := fun hcs => h (List.mem_cons_of_mem c hcs)
    rw [splitChar, if_neg hc, ih hcs]

theorem splitChar_append {sep : Char} {p : List Char} (rest : List Char)
    (h : sep ∉ p) :
    splitChar sep (p ++ sep :: rest) = p :: splitChar sep rest := by
  induction p with
  | nil => simp [splitChar]
  | cons c p' ih =>
    have hc : ¬ c = sep := fun hc => h (hc ▸ List.mem_cons_self c p')
    have hp' : sep ∉ p' := fun hp => h (List.mem_cons_of_mem c hp)
    rw [List.cons_append, splitChar, if_neg hc, ih hp']

/-- The claim's reading of lines 129-130 (spec: "split into `name` and
`expr` once on the first separator"): `name` is the text before the first
`=`, `expr` is the entire remainder after it. -/
def firstSplit (l : List Char) : List Char × List Char :=
  (trimL (l.takeWhile (fun c => ¬ c = '=')),
    trimL ((l.dropWhile (fun c => ¬ c = '=')).drop 1))

/-- `evalCore` as the claim describes it: identical except that the
assignment is split once on the first separator (`firstSplit`), keeping
the entire remainder as the expression. -/
def evalCoreFirstSplit {V : Type} (E : Engine V) (vars : List (String × V))
    (input : List Char) : LineOut × List (String × V) :=
  if input.contains '=' then
    let ps := firstSplit input
    assignEval E vars ps.1 ps.2
  else
    match E.evaluate (String.mk input) vars with
    | .error m => (errOut m, vars)
    | .ok v =>
      match E.format v with
      | .error m => (errOut m, vars)
      | .ok r => (⟨r, false, ""⟩, vars)

/-- C3 counterexample: on the input `x = 1 = 2` (trimmed, non-comment,
contains a separator) the source evaluates the expression `1` — the
segment between the first and second `=` — and succeeds, whereas the
claimed "entire remainder" split would evaluate `1 = 2`.  `expr` is
therefore not the entire remainder after the first `=`. -/
theorem c3_split_counterexample :
    (evalCore specEngine [] "x = 1 = 2".data).1 = ⟨"1", false, ""⟩ ∧
    (evalCore specEngine [] "x = 1 = 2".data).2 = [("x", (1:Int))] ∧
    (evalCoreFirstSplit specEngine [] "x = 1 = 2".data).1 =
      ⟨"Error", true, "Undefined symbol 1 = 2"⟩ := by
  refine ⟨by decide, by decide, by decide⟩

/-- C3 amended: `evaluateLine` splits the input at every `=` and keeps the
first two trimmed segments: `name` is the text before the first separator,
and `expr` is the text strictly between the first and second separators
when two or more occur; only when the input contains exactly one
separator is `expr` the entire remainder after it. -/
theorem c3_split_amended :
    (∀ p q r : List Char, '=' ∉ p → '=' ∉ q →
      assignSplit (p ++ '=' :: (q ++ '=' :: r)) = (trimL p, trimL q)) ∧
    (∀ p q : List Char, '=' ∉ p → '=' ∉ q →
      assignSplit (p ++ '=' :: q) = (trimL p, trimL q)) := by
  constructor
  · intro p q r hp hq
    unfold assignSplit
    rw [splitChar_append _ hp, splitChar_append _ hq]
    rfl
  · intro p q hp hq
    unfold assignSplit
    rw [splitChar_append _ hp, splitChar_of_not_mem hq]
    rfl

/-- Witness for C3 amended at concrete inputs (two separators, and exactly
one separator). -/
theorem c3_split_amended_witness :
    assignSplit ("x ".data ++ '=' :: (" 1 ".data ++ '=' :: " 2".data)) =
      (trimL "x ".data, trimL " 1 ".data) ∧
    assignSplit ("y ".data ++ '=' :: " 7".data) =
      (trimL "y ".data, trimL " 7".data) :=
  ⟨c3_split_amended.1 "x ".data " 1 ".data " 2".data (by decide) (by decide),
   c3_split_amended.2 "y ".data " 7".data (by decide) (by decide)⟩

/-! ### Claims C5 and C4 — error handling -/

/-- Every erroring `evalCore` outcome is the `catch` outcome for some
engine message. -/
theorem evalCore_hasError_eq {V : Type} (E : Engine V) (vars : List (String × V))
    (input : List Char) (h : (evalCore E vars input).1.hasError = true) :
    ∃ m, (evalCore E vars input).1 = errOut m := by
  revert h
  unfold evalCore assignEval convAssign plainAssign
  dsimp only
  split
  · split
    · split
      · exact fun _ => ⟨_, rfl⟩
      · split
        · exact fun _ => ⟨_, rfl⟩
        · split
          · exact fun _ => ⟨_, rfl⟩
          · intro h; exact absurd h (by simp)
    · split
      · exact fun _ => ⟨_, rfl⟩
      · split
        · exact fun _ => ⟨_, rfl⟩
        · intro h; exact absurd h (by simp)
  · split
    · exact fun _ => ⟨_, rfl⟩
    · split
      · exact fun _ => ⟨_, rfl⟩
      · intro h; exact absurd h (by simp)

/-- C5 amended: when a line's evaluation ends in the error state, the
binding table is unchanged if the failure happened during evaluation or
conversion; but when the failure happens during *formatting* of an
assignment, the variable has already been assigned the computed value, so
the table has gained exactly that binding despite the error state. -/
theorem c5_error_bindings_amended {V : Type} (E : Engine V)
    (vars : List (String × V)) (input : List Char)
    (h : (evalCore E vars input).1.hasError = true) :
    (evalCore E vars input).2 = vars ∨
    ∃ nm v m, E.format v = .error m ∧
      (evalCore E vars input).2 = (nm, v) :: vars := by
  revert h
  unfold evalCore assignEval convAssign plainAssign
  dsimp only
  split
  · split
    · split
      · intro _; left; rfl
      · split
        · intro _; left; rfl
        · split
          · rename_i heq
            intro _
            right
            exact ⟨_, _, _, heq, rfl⟩
          · intro h; exact absurd h (by simp)
    · split
      · intro _; left; rfl
      · split
        · rename_i heq
          intro _
          right
          exact ⟨_, _, _, heq, rfl⟩
        · intro h; exact absurd h (by simp)
  · split
    · intro _; left; rfl
    · split
      · intro _; left; rfl
      · intro h; exact absurd h (by simp)

/-- An engine whose formatting step fails: evaluation and conversion
succeed (value `0`), but `format` always raises. -/
def badFormatEngine : Engine Int where
  evaluate _ _ := .ok 0
  convert v _ := .ok v
  format _ := .error "fmt"

/-- C5 counterexample: with an engine whose *formatting* step fails, the
line `a = 1` ends in the error state, yet the binding table is changed by
that line — it now contains `a`, because the source stores the value
before formatting it.  This refutes "the binding table is unchanged ...
regardless of which step (evaluation, conversion, or formatting)
failed". -/
theorem c5_error_bindings_counterexample :
    (evaluateLine badFormatEngine ["a = 1"] ⟨blankOuts 1, []⟩ 0).1.outs[0]? =
      some ⟨"Error", true, "fmt"⟩ ∧
    (evaluateLine badFormatEngine ["a = 1"] ⟨blankOuts 1, []⟩ 0).1.vars =
      [("a", (0:Int))] ∧
    ¬ (evaluateLine badFormatEngine ["a = 1"] ⟨blankOuts 1, []⟩ 0).1.vars = [] := by
  refine ⟨by decide, by decide, by decide⟩

/-- Witness for C5 amended: with `specEngine`, the line `x = y` (with `y`
undefined) errors during evaluation and the table is unchanged (left
disjunct). -/
theorem c5_error_bindings_amended_witness :
    (evalCore specEngine [] "x = y".data).2 = [] ∨
    ∃ nm v m, specEngine.format v = .error m ∧
      (evalCore specEngine [] "x = y".data).2 = (nm, v) :: [] :=
  c5_error_bindings_amended specEngine [] "x = y".data (by decide)

/-- An engine whose failures carry an empty message (in JS, a thrown value
whose `message` is empty or absent). -/
def emptyMsgEngine : Engine Int where
  evaluate _ _ := .error ""
  convert v _ := .ok v
  format _ := .error ""

/-- C4 counterexample: when the engine raises an error whose message is
empty, the source's `err.message || 'Unknown error'` (line 156) sets
`errorMessage` to the fallback text `"Unknown error"`, not to the
engine-supplied message.  The "errorMessage is the engine-supplied
message" part of the claim therefore fails for empty messages. -/
theorem c4_error_fields_counterexample :
    (evaluateLine emptyMsgEngine ["x = 1"] ⟨blankOuts 1, []⟩ 0).1.outs[0]? =
      some ⟨"Error", true, "Unknown error"⟩ ∧
    ¬ ("Unknown error" = "") := by
  refine ⟨by decide, by decide⟩

/-- C4 amended: for every line whose evaluation, conversion or formatting
fails, `evaluateLine` sets that line's output to the `catch` outcome —
`result = "Error"`, `hasError = true`, and `errorMessage` equal to the
engine-supplied message, with the fallback `"Unknown error"` when that
message is empty — and the cascade is not aborted: every subsequent line
is still evaluated, in increasing order. -/
theorem c4_error_fields_amended {V : Type} (E : Engine V) (inputs : List String)
    (st : EvalSt V) (i : Nat) (s : String)
    (hin : inputs[i]? = some s)
    (hskip : isSkipped (trimL s.data) = false)
    (hlen : st.outs.length = inputs.length)
    (herr : (evalCore E st.vars (trimL s.data)).1.hasError = true) :
    (∃ m, (evalCore E st.vars (trimL s.data)).1 = errOut m ∧
      errOut m = ⟨"Error", true, if m = "" then "Unknown error" else m⟩) ∧
    (evaluateLine E inputs st i).1.outs[i]? =
      some (evalCore E st.vars (trimL s.data)).1 ∧
    (List.range' (i + 1) (inputs.length - (i + 1))).Sublist
      ((evaluateLine E inputs st i).2.map Prod.fst) := by
  have hi : i < inputs.length := (List.getElem?_eq_some.mp hin).1
  obtain ⟨m, hm⟩ := evalCore_hasError_eq E st.vars (trimL s.data) herr
  refine ⟨⟨m, hm, rfl⟩, ?_, ?_⟩
  · rw [evaluateLine_eq_step]
    unfold evalStep
    rw [hin]
    simp only [hskip, if_false, Bool.false_eq_true]
    rw [evalLoop_frame]
    · exact List.getElem?_set_self (by omega)
    · intro hmem
      rw [List.mem_range'_1] at hmem
      omega
  · rw [evaluateLine_eq_step]
    unfold evalStep
    rw [hin]
    simp only [hskip, if_false, Bool.false_eq_true, List.map_cons]
    exact List.Sublist.trans
      (evalLoop_trace_sublist E inputs _ _
        (fun j hj => by rw [List.mem_range'_1] at hj; omega))
      (List.sublist_cons_self _ _)

/-- Witness for C4 amended: with `specEngine`, line 0 `x = y` fails
(undefined symbol `y`) and line 1 is still evaluated. -/
theorem c4_error_fields_amended_witness :
    (∃ m, (evalCore specEngine (EvalSt.vars ⟨blankOuts 2, []⟩)
        (trimL "x = y".data)).1 = errOut m ∧
      errOut m = ⟨"Error", true, if m = "" then "Unknown error" else m⟩) ∧
    (evaluateLine specEngine ["x = y", "z = 1"] ⟨blankOuts 2, []⟩ 0).1.outs[0]? =
      some (evalCore specEngine (EvalSt.vars ⟨blankOuts 2, []⟩)
        (trimL "x = y".data)).1 ∧
    (List.range' (0 + 1) (2 - (0 + 1))).Sublist
      ((evaluateLine specEngine ["x = y", "z = 1"]
          ⟨blankOuts 2, []⟩ 0).2.map Prod.fst) :=
  c4_error_fields_amended specEngine ["x = y", "z = 1"] ⟨blankOuts 2, []⟩ 0
    "x = y" rfl (by decide) rfl (by decide)

/-! ### Claim C2 — deleting a line -/

/-- C2 counterexample: deleting the empty first line does *not* re-evaluate
the line after it — its stale result `"5"` is kept verbatim — although
re-evaluating it against the (untouched) binding table would produce `"7"`.
`handleBackspace` performs no evaluation at all. -/
theorem c2_delete_counterexample :
    (handleBackspace
        (⟨[⟨"", "", false, ""⟩, ⟨"b", "5", false, ""⟩], [("b", (7:Int))]⟩ :
          AppState Int) 0).lines = [⟨"b", "5", false, ""⟩] ∧
    (handleBackspace
        (⟨[⟨"", "", false, ""⟩, ⟨"b", "5", false, ""⟩], [("b", (7:Int))]⟩ :
          AppState Int) 0).vars = [("b", (7:Int))] ∧
    (storeEvaluateLine specEngine
        (⟨[⟨"b", "5", false, ""⟩], [("b", (7:Int))]⟩ : AppState Int) 0).lines =
      [⟨"b", "7", false, ""⟩] ∧
    ¬ ("5" = "7") := by
  refine ⟨by decide, by decide, by decide, by decide⟩

/-- C2 amended: removing a line (backspace on an empty line while more
than one line exists) deletes exactly that record and triggers *no*
re-evaluation — every remaining line keeps its previous result and error
fields — and the binding table is not reset (it is left exactly as it
was), so a binding contributed by the deleted line persists until some
later evaluation overwrites it. -/
theorem c2_delete_amended {V : Type} (st : AppState V) (i : Nat)
    (line : CalculatorLine) (hline : st.lines[i]? = some line)
    (hempty : line.input = "") (hlen : st.lines.length > 1) :
    (handleBackspace st i).lines = st.lines.eraseIdx i ∧
    (handleBackspace st i).vars = st.vars := by
  unfold handleBackspace
  rw [hline]
  simp only [hempty, hlen, and_true, if_pos rfl]
  exact ⟨rfl, rfl⟩

/-- Witness for C2 amended at the concrete state of the counterexample. -/
theorem c2_delete_amended_witness :
    (handleBackspace
        (⟨[⟨"", "", false, ""⟩, ⟨"b", "5", false, ""⟩], [("b", (7:Int))]⟩ :
          AppState Int) 0).lines =
      ([⟨"", "", false, ""⟩, ⟨"b", "5", false, ""⟩] :
        List CalculatorLine).eraseIdx 0 ∧
    (handleBackspace
        (⟨[⟨"", "", false, ""⟩, ⟨"b", "5", false, ""⟩], [("b", (7:Int))]⟩ :
          AppState Int) 0).vars = [("b", (7:Int))] :=
  c2_delete_amended
    (⟨[⟨"", "", false, ""⟩, ⟨"b", "5", false, ""⟩], [("b", (7:Int))]⟩ :
      AppState Int) 0 ⟨"", "", false, ""⟩ rfl rfl (by decide)

/-! ### Claim C6 — the sequence never becomes empty -/

/-- C6: every operation preserves "at least one line", and backspacing
when only one line remains is a no-op (the guard
`lines.value.length > 1` fails), so the sequence length stays ≥ 1. -/
theorem c6_at_least_one_line {V : Type} (E : Engine V) (op : AppOp)
    (st : AppState V) :
    (1 ≤ st.lines.length → 1 ≤ (applyOp E op st).lines.length) ∧
    (st.lines.length = 1 → ∀ i, handleBackspace st i = st) := by
  constructor
  · intro h1
    cases op with
    | add i =>
      cases i with
      | none => simp [applyOp, addLine]
      | some n =>
        simp only [applyOp, addLine]
        by_cases hn : n ≤ st.lines.length
        · rw [List.length_insertIdx n st.lines hn]; omega
        · rw [List.insertIdx_of_length_lt st.lines newLine n (by omega)]; omega
    | backspace i =>
      simp only [applyOp]
      unfold handleBackspace
      cases hl : st.lines[i]? with
      | none => exact h1
      | some line =>
        dsimp only
        split
        · rename_i hcond
          simp only [List.length_eraseIdx]
          split
          · omega
          · omega
        · exact h1
    | evalLine i =>
      simp only [applyOp, storeEvaluateLine, withOuts]
      rw [List.length_zipWith, evaluateLine_outs_length]
      simp only [List.length_map]
      omega
  · intro h1 i
    unfold handleBackspace
    cases hl : st.lines[i]? with
    | none => rfl
    | some line =>
      dsimp only
      rw [if_neg]
      intro hcond
      omega

/-- Witness for C6: backspacing the single remaining line changes
nothing, and the length stays 1. -/
theorem c6_at_least_one_line_witness :
    1 ≤ (applyOp specEngine (AppOp.backspace 0)
      (⟨[newLine], []⟩ : AppState Int)).lines.length ∧
    handleBackspace (⟨[newLine], []⟩ : AppState Int) 0 =
      (⟨[newLine], []⟩ : AppState Int) :=
  ⟨(c6_at_least_one_line specEngine (AppOp.backspace 0) ⟨[newLine], []⟩).1
      (by decide),
   (c6_at_least_one_line specEngine (AppOp.backspace 0) ⟨[newLine], []⟩).2
      rfl 0⟩

/-! ### Claim C9 — currency registration -/

/-- C9 counterexample: the entry `("1inch", 1)` has a numeric, finite,
positive rate and is not the `usd` entry, so by the claim it should yield
two unit definitions; the source skips it (the explicit `'1inch'` special
case in line 93), registering nothing. -/
theorem c9_currency_counterexample :
    fetchCurrency [("1inch", .num (.fin 1))] = [] ∧
    skipCurrencyClaim "1inch" (.num (.fin 1)) = false ∧
    ¬ (fetchCurrency [("1inch", .num (.fin 1))]).length = 2 := by
  refine ⟨by decide, by decide, by decide⟩

/-- C9 amended: the registration step attempts exactly two unit
definitions — the lower-case and the upper-case variant of the code, each
as `1 / rate` USD — for every entry *except* those whose rate is
non-numeric, non-finite, or non-positive, the self-referential `usd`
entry, and the special-cased `1inch` entry, which are all skipped
silently. -/
theorem c9_currency_amended (entries : List (String × JsonVal)) :
    fetchCurrency entries =
      (entries.filter (fun e => ! skipCurrency e.1 e.2)).flatMap
        (fun e => [(e.1.toLower, rateOf e.2), (e.1.toUpper, rateOf e.2)]) := by
  induction entries with
  | nil => rfl
  | cons e rest ih =>
    obtain ⟨c, r⟩ := e
    by_cases hskip : skipCurrency c r
    · rw [fetchCurrency, if_pos hskip, List.filter_cons, if_neg (by simp [hskip])]
      exact ih
    · rw [fetchCurrency, if_neg hskip, List.filter_cons,
        if_pos (by simp [hskip]), List.flatMap_cons]
      rw [ih]
      rfl

/-! ### Claim C8 — idempotence of a full pass

The pass-2-equals-pass-1 argument: when every evaluation of the first
pass succeeds, the second pass (which starts from the binding table the
first pass produced) replays the same engine calls with the same results,
because the first pass's table at each point is a prefix of the second
pass's table, and a successful evaluation is preserved when the table is
extended on the right (engine monotonicity). -/

/-- All evaluations in a trace succeeded. -/
def allOk (tr : List (Nat × Bool)) : Bool :=
  tr.all (fun p => ! p.2)

/-- Monotonicity of an engine: appending entries to the (right of the)
table preserves a successful evaluation.  The association-list table reads
left-to-right, so appended entries are only consulted for names the
original table does not bind. -/
def EngineMono {V : Type} (E : Engine V) : Prop :=
  ∀ (s : String) (t w : List (String × V)) (v : V),
    E.evaluate s t = .ok v → E.evaluate s (t ++ w) = .ok v

theorem convAssign_append {V : Type} {E : Engine V} (hMono : EngineMono E)
    (t w : List (String × V)) (nm : List Char) (s1 s2 : String)
    (h : (convAssign E t nm s1 s2).1.hasError = false) :
    convAssign E (t ++ w) nm s1 s2 =
      ((convAssign E t nm s1 s2).1, (convAssign E t nm s1 s2).2 ++ w) := by
  revert h
  unfold convAssign
  cases he : E.evaluate s1 t with
  | error m => intro h; exact absurd h (by simp [errOut])
  | ok v =>
    rw [hMono s1 t w v he]
    dsimp only
    cases hc : E.convert v s2 with
    | error m => intro _; rfl
    | ok conv =>
      dsimp only
      cases hf : E.format conv with
      | error m => intro _; rfl
      | ok r => intro _; rfl

theorem plainAssign_append {V : Type} {E : Engine V} (hMono : EngineMono E)
    (t w : List (String × V)) (nm : List Char) (s : String)
    (h : (plainAssign E t nm s).1.hasError = false) :
    plainAssign E (t ++ w) nm s =
      ((plainAssign E t nm s).1, (plainAssign E t nm s).2 ++ w) := by
  revert h
  unfold plainAssign
  cases he : E.evaluate s t with
  | error m => intro h; exact absurd h (by simp [errOut])
  | ok v =>
    rw [hMono s t w v he]
    dsimp only
    cases hf : E.format v with
    | error m => intro _; rfl
    | ok r => intro _; rfl

theorem evalCore_append {V : Type} {E : Engine V} (hMono : EngineMono E)
    (t w : List (String × V)) (input : List Char)
    (h : (evalCore E t input).1.hasError = false) :
    evalCore E (t ++ w) input =
      ((evalCore E t input).1, (evalCore E t input).2 ++ w) := by
  revert h
  unfold evalCore assignEval
  dsimp only
  split
  · split
    · exact fun h => convAssign_append hMono t w _ _ _ h
    · exact fun h => plainAssign_append hMono t w _ _ h
  · cases he : E.evaluate (String.mk input) t with
    | error m => intro h; exact absurd h (by simp [errOut])
    | ok v =>
      rw [hMono (String.mk input) t w v he]
      dsimp only
      cases hf : E.format v with
      | error m => intro _; rfl
      | ok r => intro _; rfl

/-- Frame property by trace: a line that is never evaluated keeps its
output. -/
theorem evalLoop_frame_trace {V : Type} (E : Engine V) (inputs : List String) :
    ∀ (js : List Nat) (st : EvalSt V) (k : Nat),
      k ∉ (evalLoop E inputs js st).2.map Prod.fst →
      (evalLoop E inputs js st).1.outs[k]? = st.outs[k]? := by
  intro js
  induction js with
  | nil => intro st k _; rfl
  | cons j rest ih =>
    intro st k h
    rw [evalLoop_cons] at h ⊢
    simp only [List.map_append, List.mem_append] at h
    push_neg at h
    obtain ⟨h1, h2⟩ := h
    rw [ih _ _ h2]
    revert h1
    unfold evalStep
    cases hin : inputs[j]? with
    | none => intro _; rfl
    | some s =>
      dsimp only
      split
      · intro h1
        simp only [List.map_cons, List.map_nil, List.mem_singleton] at h1
        exact List.getElem?_set_ne (fun he => h1 he.symm)
      · intro h1
        simp only [List.map_cons, List.mem_cons] at h1
        push_neg at h1
        rw [ih _ _ h1.2]
        exact List.getElem?_set_ne (fun he => h1.1 he.symm)

/-- The core simulation: if every evaluation while processing `js` from
`st₁` succeeds, then processing `js` from a state whose table extends
`st₁.vars` on the right (and with the same number of lines) performs the
same evaluations with the same outcomes: same trace, a table extended by
the same entries, and the same output everywhere the trace wrote, with
untouched lines keeping the second state's outputs. -/
theorem evalLoop_sim {V : Type} {E : Engine V} (hMono : EngineMono E)
    (inputs : List String) :
    ∀ (js : List Nat) (st₁ st₂ : EvalSt V) (w : List (String × V)),
      st₂.vars = st₁.vars ++ w →
      st₂.outs.length = st₁.outs.length →
      allOk (evalLoop E inputs js st₁).2 = true →
      (evalLoop E inputs js st₂).2 = (evalLoop E inputs js st₁).2 ∧
      (evalLoop E inputs js st₂).1.vars = (evalLoop E inputs js st₁).1.vars ++ w ∧
      ∀ k, (evalLoop E inputs js st₂).1.outs[k]? =
        if k ∈ (evalLoop E inputs js st₁).2.map Prod.fst
        then (evalLoop E inputs js st₁).1.outs[k]?
        else st₂.outs[k]? := by
  intro js
  induction js with
  | nil =>
    intro st₁ st₂ w hv hlen _
    refine ⟨rfl, hv, ?_⟩
    intro k
    simp [evalLoop_nil]
  | cons j rest ih =>
    have stepSim : ∀ (a₁ a₂ : EvalSt V) (w : List (String × V)),
        a₂.vars = a₁.vars ++ w →
        a₂.outs.length = a₁.outs.length →
        allOk (evalStep E inputs j rest a₁).2 = true →
        (evalStep E inputs j rest a₂).2 = (evalStep E inputs j rest a₁).2 ∧
        (evalStep E inputs j rest a₂).1.vars =
          (evalStep E inputs j rest a₁).1.vars ++ w ∧
        ∀ k, (evalStep E inputs j rest a₂).1.outs[k]? =
          if k ∈ (evalStep E inputs j rest a₁).2.map Prod.fst
          then (evalStep E inputs j rest a₁).1.outs[k]?
          else a₂.outs[k]? := by
      intro a₁ a₂ w hv hlen hok
      revert hok
      unfold evalStep
      cases hin : inputs[j]? with
      | none =>
        intro _
        refine ⟨rfl, hv, ?_⟩
        intro k
        simp
      | some s =>
        dsimp only
        split
        · intro _
          refine ⟨rfl, hv, ?_⟩
          intro k
          by_cases hk : k = j
          · subst hk
            simp [List.getElem?_set, hlen]
          · simp [List.getElem?_set_ne (fun he => hk he.symm), hk]
        · intro hok
          have hok' : (evalCore E a₁.vars (trimL s.data)).1.hasError = false ∧
              allOk (evalLoop E inputs rest
                ⟨a₁.outs.set j (evalCore E a₁.vars (trimL s.data)).1,
                  (evalCore E a₁.vars (trimL s.data)).2⟩).2 = true := by
            simpa [allOk] using hok
          have hp2 : evalCore E a₂.vars (trimL s.data) =
              ((evalCore E a₁.vars (trimL s.data)).1,
                (evalCore E a₁.vars (trimL s.data)).2 ++ w) := by
            rw [hv]
            exact evalCore_append hMono _ _ _ hok'.1
          rw [hp2]
          dsimp only
          obtain ⟨htr, hvr, houts⟩ := ih
            ⟨a₁.outs.set j (evalCore E a₁.vars (trimL s.data)).1,
              (evalCore E a₁.vars (trimL s.data)).2⟩
            ⟨a₂.outs.set j (evalCore E a₁.vars (trimL s.data)).1,
              (evalCore E a₁.vars (trimL s.data)).2 ++ w⟩
            w rfl (by simp [hlen]) hok'.2
          refine ⟨by rw [htr], hvr, ?_⟩
          intro k
          rw [houts k]
          by_cases hk1 : k ∈ (evalLoop E inputs rest
              ⟨a₁.outs.set j (evalCore E a₁.vars (trimL s.data)).1,
                (evalCore E a₁.vars (trimL s.data)).2⟩).2.map Prod.fst
          · rw [if_pos hk1, if_pos (by simp [hk1])]
          · rw [if_neg hk1]
            by_cases hk : k = j
            · subst hk
              rw [if_pos (by simp), evalLoop_frame_trace E inputs rest _ _ hk1]
              simp [List.getElem?_set, hlen]
            · rw [if_neg (by simp [hk, hk1])]
              exact List.getElem?_set_ne (fun he => hk he.symm)
    intro st₁ st₂ w hv hlen hok
    rw [evalLoop_cons E inputs j rest st₁] at hok
    dsimp only at hok
    have hokSplit : allOk (evalStep E inputs j rest st₁).2 = true ∧
        allOk (evalLoop E inputs rest (evalStep E inputs j rest st₁).1).2 = true := by
      simpa [allOk, List.all_append] using hok
    obtain ⟨hstr, hsvr, hsouts⟩ := stepSim st₁ st₂ w hv hlen hokSplit.1
    have hslen : (evalStep E inputs j rest st₂).1.outs.length =
        (evalStep E inputs j rest st₁).1.outs.length := by
      have e1 : (evalStep E inputs j rest st₁).1.outs.length = st₁.outs.length := by
        unfold evalStep
        cases hin : inputs[j]? with
        | none => rfl
        | some s =>
          dsimp only
          split
          · simp
          · rw [evalLoop_outs_length]; simp
      have e2 : (evalStep E inputs j rest st₂).1.outs.length = st₂.outs.length := by
        unfold evalStep
        cases hin : inputs[j]? with
        | none => rfl
        | some s =>
          dsimp only
          split
          · simp
          · rw [evalLoop_outs_length]; simp
      rw [e1, e2, hlen]
    obtain ⟨hotr, hovr, hoouts⟩ := ih
      (evalStep E inputs j rest st₁).1 (evalStep E inputs j rest st₂).1 w
      hsvr hslen hokSplit.2
    rw [evalLoop_cons E inputs j rest st₂, evalLoop_cons E inputs j rest st₁]
    dsimp only
    refine ⟨by rw [hstr, hotr], hovr, ?_⟩
    intro k
    rw [hoouts k]
    simp only [List.map_append, List.mem_append]
    by_cases hk1 : k ∈ (evalLoop E inputs rest
        (evalStep E inputs j rest st₁).1).2.map Prod.fst
    · rw [if_pos hk1, if_pos (Or.inr hk1)]
    · rw [if_neg hk1, hsouts k]
      by_cases hk2 : k ∈ (evalStep E inputs j rest st₁).2.map Prod.fst
      · rw [if_pos hk2, if_pos (Or.inl hk2),
          evalLoop_frame_trace E inputs rest _ _ hk1]
      · rw [if_neg hk2, if_neg (by rintro (h | h); exact hk2 h; exact hk1 h)]

/-- Frame property by trace for a single step (an `evaluateLine` call with
an arbitrary cascade list). -/
theorem evalStep_frame_trace {V : Type} (E : Engine V) (inputs : List String)
    (j : Nat) (rest : List Nat) (st : EvalSt V) (k : Nat)
    (h : k ∉ (evalStep E inputs j rest st).2.map Prod.fst) :
    (evalStep E inputs j rest st).1.outs[k]? = st.outs[k]? := by
  revert h
  unfold evalStep
  cases hin : inputs[j]? with
  | none => intro _; rfl
  | some s =>
    dsimp only
    split
    · intro h1
      simp only [List.map_cons, List.map_nil, List.mem_singleton] at h1
      exact List.getElem?_set_ne (fun he => h1 he.symm)
    · intro h1
      simp only [List.map_cons, List.mem_cons] at h1
      push_neg at h1
      rw [evalLoop_frame_trace E inputs rest _ _ h1.2]
      exact List.getElem?_set_ne (fun he => h1.1 he.symm)

/-- Simulation for a single step (an `evaluateLine` call with an arbitrary
cascade list): same trace, table extended by the same entries, same
written outputs. -/
theorem evalStep_sim {V : Type} {E : Engine V} (hMono : EngineMono E)
    (inputs : List String) (j : Nat) (rest : List Nat) :
    ∀ (a₁ a₂ : EvalSt V) (w : List (String × V)),
      a₂.vars = a₁.vars ++ w →
      a₂.outs.length = a₁.outs.length →
      allOk (evalStep E inputs j rest a₁).2 = true →
      (evalStep E inputs j rest a₂).2 = (evalStep E inputs j rest a₁).2 ∧
      (evalStep E inputs j rest a₂).1.vars =
        (evalStep E inputs j rest a₁).1.vars ++ w ∧
      ∀ k, (evalStep E inputs j rest a₂).1.outs[k]? =
        if k ∈ (evalStep E inputs j rest a₁).2.map Prod.fst
        then (evalStep E inputs j rest a₁).1.outs[k]?
        else a₂.outs[k]? := by
  intro a₁ a₂ w hv hlen hok
  revert hok
  unfold evalStep
  cases hin : inputs[j]? with
  | none =>
    intro _
    refine ⟨rfl, hv, ?_⟩
    intro k
    simp
  | some s =>
    dsimp only
    split
    · intro _
      refine ⟨rfl, hv, ?_⟩
      intro k
      by_cases hk : k = j
      · subst hk
        simp [List.getElem?_set, hlen]
      · simp [List.getElem?_set_ne (fun he => hk he.symm), hk]
    · intro hok
      have hok' : (evalCore E a₁.vars (trimL s.data)).1.hasError = false ∧
          allOk (evalLoop E inputs rest
            ⟨a₁.outs.set j (evalCore E a₁.vars (trimL s.data)).1,
              (evalCore E a₁.vars (trimL s.data)).2⟩).2 = true := by
        simpa [allOk] using hok
      have hp2 : evalCore E a₂.vars (trimL s.data) =
          ((evalCore E a₁.vars (trimL s.data)).1,
            (evalCore E a₁.vars (trimL s.data)).2 ++ w) := by
        rw [hv]
        exact evalCore_append hMono _ _ _ hok'.1
      rw [hp2]
      dsimp only
      obtain ⟨htr, hvr, houts⟩ := evalLoop_sim hMono inputs rest
        ⟨a₁.outs.set j (evalCore E a₁.vars (trimL s.data)).1,
          (evalCore E a₁.vars (trimL s.data)).2⟩
        ⟨a₂.outs.set j (evalCore E a₁.vars (trimL s.data)).1,
          (evalCore E a₁.vars (trimL s.data)).2 ++ w⟩
        w rfl (by simp [hlen]) hok'.2
      refine ⟨by rw [htr], hvr, ?_⟩
      intro k
      rw [houts k]
      by_cases hk1 : k ∈ (evalLoop E inputs rest
          ⟨a₁.outs.set j (evalCore E a₁.vars (trimL s.data)).1,
            (evalCore E a₁.vars (trimL s.data)).2⟩).2.map Prod.fst
      · rw [if_pos hk1, if_pos (by simp [hk1])]
      · rw [if_neg hk1]
        by_cases hk : k = j
        · subst hk
          rw [if_pos (by simp), evalLoop_frame_trace E inputs rest _ _ hk1]
          simp [List.getElem?_set, hlen]
        · rw [if_neg (by simp [hk, hk1])]
          exact List.getElem?_set_ne (fun he => hk he.symm)

/-! ### Lifting the simulation to a full pass -/

theorem runList_cons {V : Type} (E : Engine V) (inputs : List String)
    (j : Nat) (rest : List Nat) (st : EvalSt V) :
    runList E inputs (j :: rest) st =
      ((runList E inputs rest (evaluateLine E inputs st j).1).1,
        (evaluateLine E inputs st j).2 ++
          (runList E inputs rest (evaluateLine E inputs st j).1).2) := rfl

theorem runList_outs_length {V : Type} (E : Engine V) (inputs : List String) :
    ∀ (js : List Nat) (st : EvalSt V),
      (runList E inputs js st).1.outs.length = st.outs.length := by
  intro js
  induction js with
  | nil => intro st; rfl
  | cons j rest ih =>
    intro st
    rw [runList_cons]
    dsimp only
    rw [ih, evaluateLine_outs_length]

theorem runList_frame_trace {V : Type} (E : Engine V) (inputs : List String) :
    ∀ (js : List Nat) (st : EvalSt V) (k : Nat),
      k ∉ (runList E inputs js st).2.map Prod.fst →
      (runList E inputs js st).1.outs[k]? = st.outs[k]? := by
  intro js
  induction js with
  | nil => intro st k _; rfl
  | cons j rest ih =>
    intro st k h
    rw [runList_cons] at h ⊢
    dsimp only at h ⊢
    simp only [List.map_append, List.mem_append] at h
    push_neg at h
    rw [ih _ _ h.2, evaluateLine_eq_step]
    exact evalStep_frame_trace E inputs j _ st k
      (by rw [evaluateLine_eq_step] at h; exact h.1)

/-- Simulation for a full pass: when every evaluation of the pass from
`st₁` succeeds, the pass from an extended table makes the same
evaluations, extends the table by the same entries, and writes the same
outputs. -/
theorem runList_sim {V : Type} {E : Engine V} (hMono : EngineMono E)
    (inputs : List String) :
    ∀ (js : List Nat) (st₁ st₂ : EvalSt V) (w : List (String × V)),
      st₂.vars = st₁.vars ++ w →
      st₂.outs.length = st₁.outs.length →
      allOk (runList E inputs js st₁).2 = true →
      (runList E inputs js st₂).2 = (runList E inputs js st₁).2 ∧
      (runList E inputs js st₂).1.vars = (runList E inputs js st₁).1.vars ++ w ∧
      ∀ k, (runList E inputs js st₂).1.outs[k]? =
        if k ∈ (runList E inputs js st₁).2.map Prod.fst
        then (runList E inputs js st₁).1.outs[k]?
        else st₂.outs[k]? := by
  intro js
  induction js with
  | nil =>
    intro st₁ st₂ w hv hlen _
    refine ⟨rfl, hv, ?_⟩
    intro k
    simp [runList]
  | cons j rest ih =>
    intro st₁ st₂ w hv hlen hok
    rw [runList_cons E inputs j rest st₁] at hok
    dsimp only at hok
    have hokSplit : allOk (evaluateLine E inputs st₁ j).2 = true ∧
        allOk (runList E inputs rest (evaluateLine E inputs st₁ j).1).2 = true := by
      simpa [allOk, List.all_append] using hok
    have hstep := evalStep_sim hMono inputs j
      (List.range' (j + 1) (inputs.length - (j + 1))) st₁ st₂ w hv hlen
      (by rw [evaluateLine_eq_step] at hokSplit; exact hokSplit.1)
    rw [← evaluateLine_eq_step, ← evaluateLine_eq_step] at hstep
    obtain ⟨hstr, hsvr, hsouts⟩ := hstep
    have hslen : (evaluateLine E inputs st₂ j).1.outs.length =
        (evaluateLine E inputs st₁ j).1.outs.length := by
      rw [evaluateLine_outs_length, evaluateLine_outs_length, hlen]
    obtain ⟨hotr, hovr, hoouts⟩ := ih
      (evaluateLine E inputs st₁ j).1 (evaluateLine E inputs st₂ j).1 w
      hsvr hslen hokSplit.2
    rw [runList_cons E inputs j rest st₂, runList_cons E inputs j rest st₁]
    dsimp only
    refine ⟨by rw [hstr, hotr], hovr, ?_⟩
    intro k
    rw [hoouts k]
    simp only [List.map_append, List.mem_append]
    by_cases hk1 : k ∈ (runList E inputs rest
        (evaluateLine E inputs st₁ j).1).2.map Prod.fst
    · rw [if_pos hk1, if_pos (Or.inr hk1)]
    · rw [if_neg hk1, hsouts k]
      by_cases hk2 : k ∈ (evaluateLine E inputs st₁ j).2.map Prod.fst
      · rw [if_pos hk2, if_pos (Or.inl hk2),
          runList_frame_trace E inputs rest _ _ hk1]
      · rw [if_neg hk2, if_neg (by rintro (h | h); exact hk2 h; exact hk1 h)]

/-- C8 counterexample: inputs `["b", "b = 1"]`, binding table initially
empty.  In the first full pass, line 0 evaluates `b` before any line has
defined it and errors; the pass leaves `b = 1` in the table.  The second
pass — run with the table the first pass produced — finds `b` defined and
line 0 now yields `1` with no error.  Re-evaluating the full sequence is
therefore not idempotent: line 0's `result`/`hasError` differ between the
two passes. -/
theorem c8_idempotence_counterexample :
    (runPass specEngine ["b", "b = 1"] ⟨blankOuts 2, []⟩).1.outs[0]? =
      some ⟨"Error", true, "Undefined symbol b"⟩ ∧
    (runPass specEngine ["b", "b = 1"]
        (runPass specEngine ["b", "b = 1"] ⟨blankOuts 2, []⟩).1).1.outs[0]? =
      some ⟨"1", false, ""⟩ ∧
    ¬ ((⟨"Error", true, "Undefined symbol b"⟩ : LineOut) = ⟨"1", false, ""⟩) := by
  refine ⟨by decide, by decide, by decide⟩

/-- C8 amended: for a monotone engine (one whose successful evaluations
are preserved when the table is extended on the right — true of a table
read by first match), if *every* evaluation during the first full pass
from the empty binding table succeeds — including the intermediate
cascade evaluations — then re-evaluating the full sequence a second time,
with the binding table left in the state produced by the first pass,
yields the same `result`/`hasError`/`errorMessage` for every line.
(The idempotence claim fails in general exactly when some evaluation of
the first pass fails, i.e. when a line reads a variable that only a later
line defines, as in the counterexample.) -/
theorem c8_idempotence_amended {V : Type} (E : Engine V) (hMono : EngineMono E)
    (inputs : List String) (outs0 : List LineOut)
    (hok : allOk (runPass E inputs ⟨outs0, []⟩).2 = true) :
    (runPass E inputs (runPass E inputs ⟨outs0, []⟩).1).1.outs =
      (runPass E inputs ⟨outs0, []⟩).1.outs := by
  have hlen : (runPass E inputs ⟨outs0, []⟩).1.outs.length = outs0.length := by
    unfold runPass
    exact runList_outs_length E inputs _ _
  have hsim := runList_sim hMono inputs (List.range inputs.length)
    ⟨outs0, []⟩ (runPass E inputs ⟨outs0, []⟩).1
    (runPass E inputs ⟨outs0, []⟩).1.vars rfl hlen hok
  apply List.ext_getElem?
  intro n
  have h := hsim.2.2 n
  unfold runPass at h ⊢
  rw [h]
  split
  · rfl
  · rfl

/-- `specEngine` is monotone: a successful evaluation (a literal, or a
variable bound in the table) is preserved when entries are appended. -/
theorem specEngine_mono : EngineMono specEngine := by
  intro s t w v h
  simp only [specEngine] at h ⊢
  cases hp : parseNat? s.data with
  | some n => rw [hp] at h; exact h
  | none =>
    rw [hp] at h
    dsimp only at h ⊢
    cases hl : t.lookup s with
    | none => rw [hl] at h; exact absurd h (by simp)
    | some v' =>
      rw [hl] at h
      rw [List.lookup_append, hl]
      exact h

/-- Witness for C8 amended: the two-line sequence `a = 1`, `b = a`
evaluates without any error from the empty table, and the second pass
reproduces the first pass's outputs. -/
theorem c8_idempotence_amended_witness :
    (runPass specEngine ["a = 1", "b = a"]
        (runPass specEngine ["a = 1", "b = a"] ⟨blankOuts 2, []⟩).1).1.outs =
      (runPass specEngine ["a = 1", "b = a"] ⟨blankOuts 2, []⟩).1.outs :=
  c8_idempotence_amended specEngine specEngine_mono ["a = 1", "b = a"]
    (blankOuts 2) (by decide)

end JotiCalc
